import Mathlib

/-!
Verification of the delve debugger-session controller of nvim-go.

The definitions below are a shallow embedding of the Go sources
`src/nvim-go/commands/delve.go`, `src/nvim-go/commands/delve/delve.go` and
`src/nvim-go/nvim/buffer.go`.  Go machine integers are modelled as `Nat`
(the hit counters are `uint64`, never close to overflow in the modelled
operations) and `Int` (breakpoint ids, which the server may assign
negatively, e.g. `-1` for the unrecovered-panic breakpoint).  The Go map
`map[int]*delveapi.Breakpoint` is modelled as an association list with
nodup keys; mutation through the stored pointer becomes an in-place value
update.  A Go `nil`-pointer dereference (a runtime panic) is modelled as
`Option.none`.
-/

namespace NvimGo

/-- The fields of `delveapi.Breakpoint` that the plugin reads or writes:
`ID`, `Name`, `Addr`, `File`, `Line`, `FunctionName`, `TotalHitCount` and
`HitCount` (a map from goroutine id, rendered as a string, to a count). -/
structure Bp where
  id : Int
  name : String
  addr : Nat
  file : String
  line : Int
  functionName : String
  total : Nat
  hits : List (String × Nat)
deriving DecidableEq

/-- `delve.breakpoints : map[int]*delveapi.Breakpoint`, as an association
list from breakpoint id to descriptor. -/
abbrev Registry := List (Int × Bp)

/-- Go map read `delve.breakpoints[i]`: `none` models the `nil` pointer
returned for an absent key. -/
def lookupBp : Registry → Int → Option Bp
  | [], _ => none
  | (k, e) :: r, i => if k = i then some e else lookupBp r i

/-- In-place mutation of the descriptor stored under key `i` (the Go code
writes through the stored pointer, so the key set never changes). -/
def updateBp : Registry → Int → Bp → Registry
  | [], _, _ => []
  | (k, e) :: r, i, v => if k = i then (k, v) :: r else (k, e) :: updateBp r i v

/-- One iteration of the reconciliation loop of `delveContinue` /
`delveNext` (delve.go lines 483-489 and 531-537), restricted to its
effect on the registry:

    if delve.breakpoints[bp.ID].TotalHitCount != bp.TotalHitCount {
        delve.breakpoints[bp.ID].TotalHitCount = bp.TotalHitCount
        delve.breakpoints[bp.ID].HitCount = bp.HitCount
    } else {
        bp = delve.breakpoints[bp.ID]
    }

When `bp.ID` is not a key of the map, the Go expression dereferences a
`nil` pointer and panics; that is the `none` result. -/
def reconcileStep (reg : Registry) (bp : Bp) : Option Registry :=
  match lookupBp reg bp.id with
  | none => none
  | some cached =>
    if cached.total ≠ bp.total then
      some (updateBp reg bp.id { cached with total := bp.total, hits := bp.hits })
    else
      some reg

/-- The registry effect of the whole reconciliation loop over a
server-reported breakpoint list. -/
def reconcile : Registry → List Bp → Option Registry
  | reg, [] => some reg
  | reg, bp :: rest =>
    match reconcileStep reg bp with
    | none => none
    | some reg2 => reconcile reg2 rest

/-- The effect of one loop iteration on the cached descriptor itself. -/
def eStep (cached bp : Bp) : Bp :=
  if cached.total = bp.total then cached
  else { cached with total := bp.total, hits := bp.hits }

/-- The fields of a descriptor which the reconciliation loop never
writes. -/
def restE (b : Bp) : Int × String × Nat × String × Int × String :=
  (b.id, b.name, b.addr, b.file, b.line, b.functionName)

theorem bpExt {a b : Bp} (h1 : restE a = restE b) (h2 : a.total = b.total)
    (h3 : a.hits = b.hits) : a = b := by
  cases a; cases b
  simp only [restE, Prod.mk.injEq] at h1
  simp_all

theorem eStep_total (cached bp : Bp) : (eStep cached bp).total = bp.total := by
  unfold eStep
  split <;> simp_all

theorem restE_eStep (cached bp : Bp) : restE (eStep cached bp) = restE cached := by
  unfold eStep
  split <;> rfl

theorem restE_foldl (l : List Bp) (e : Bp) :
    restE (l.foldl eStep e) = restE e := by
  induction l generalizing e with
  | nil => rfl
  | cons x l ih => rw [List.foldl_cons, ih, restE_eStep]

theorem lookupBp_update_self {reg : Registry} {i : Int} {e : Bp} (v : Bp)
    (h : lookupBp reg i = some e) :
    lookupBp (updateBp reg i v) i = some v := by
  induction reg with
  | nil => simp [lookupBp] at h
  | cons kv r ih =>
    obtain ⟨k, w⟩ := kv
    by_cases hk : k = i
    · simp [lookupBp, updateBp, hk]
    · simp only [lookupBp, updateBp, if_neg hk] at h ⊢
      exact ih h

theorem lookupBp_update_ne {reg : Registry} {i j : Int} (v : Bp) (h : j ≠ i) :
    lookupBp (updateBp reg i v) j = lookupBp reg j := by
  induction reg with
  | nil => rfl
  | cons kv r ih =>
    obtain ⟨k, w⟩ := kv
    by_cases hk : k = i
    · have hkj : ¬ k = j := by
        intro hkj
        exact h (by rw [← hkj, hk])
      rw [updateBp, if_pos hk, lookupBp, if_neg hkj, lookupBp, if_neg hkj]
    · by_cases hkj : k = j
      · rw [updateBp, if_neg hk, lookupBp, if_pos hkj, lookupBp, if_pos hkj]
      · rw [updateBp, if_neg hk, lookupBp, if_neg hkj, lookupBp, if_neg hkj, ih]

theorem updateBp_self {reg : Registry} {i : Int} {e : Bp}
    (h : lookupBp reg i = some e) : updateBp reg i e = reg := by
  induction reg with
  | nil => rfl
  | cons kv r ih =>
    obtain ⟨k, w⟩ := kv
    by_cases hk : k = i
    · rw [lookupBp, if_pos hk] at h
      have hw : w = e := by injection h
      rw [updateBp, if_pos hk, hw]
    · rw [lookupBp, if_neg hk] at h
      rw [updateBp, if_neg hk, ih h]

theorem updateBp_keys (reg : Registry) (i : Int) (v : Bp) :
    (updateBp reg i v).map Prod.fst = reg.map Prod.fst := by
  induction reg with
  | nil => rfl
  | cons kv r ih =>
    obtain ⟨k, w⟩ := kv
    by_cases hk : k = i
    · simp [updateBp, hk]
    · simp [updateBp, if_neg hk, ih]

theorem lookupBp_eq_none_iff (reg : Registry) (i : Int) :
    lookupBp reg i = none ↔ i ∉ reg.map Prod.fst := by
  induction reg with
  | nil => simp [lookupBp]
  | cons kv r ih =>
    obtain ⟨k, w⟩ := kv
    by_cases hk : k = i
    · simp [lookupBp, hk]
    · rw [lookupBp, if_neg hk, ih]
      simp only [List.map_cons, List.mem_cons, not_or]
      constructor
      · intro hni
        exact ⟨fun hik => hk hik.symm, hni⟩
      · intro hni
        exact hni.2

theorem lookupBp_isSome_iff (reg : Registry) (i : Int) :
    (lookupBp reg i).isSome ↔ i ∈ reg.map Prod.fst := by
  rw [← Decidable.not_not (p := i ∈ reg.map Prod.fst), ← lookupBp_eq_none_iff]
  cases h : lookupBp reg i <;> simp [h]

/-- `reconcileStep` rewritten through `eStep`: the step always succeeds on
a registered id, and the resulting registry is the in-place update of the
cached descriptor by `eStep`. -/
theorem reconcileStep_eq (reg : Registry) (bp : Bp) :
    reconcileStep reg bp =
      (lookupBp reg bp.id).map (fun c => updateBp reg bp.id (eStep c bp)) := by
  unfold reconcileStep
  cases h : lookupBp reg bp.id with
  | none => rfl
  | some cached =>
    simp only [Option.map_some']
    unfold eStep
    by_cases ht : cached.total = bp.total
    · rw [if_neg (by simp [ht]), if_pos ht, updateBp_self h]
    · rw [if_pos ht, if_neg ht]

theorem reconcileStep_keys {reg reg' : Registry} {bp : Bp}
    (h : reconcileStep reg bp = some reg') :
    reg'.map Prod.fst = reg.map Prod.fst := by
  rw [reconcileStep_eq] at h
  cases hl : lookupBp reg bp.id with
  | none => rw [hl] at h; simp at h
  | some c =>
    rw [hl] at h
    simp only [Option.map_some', Option.some.injEq] at h
    rw [← h, updateBp_keys]

theorem reconcile_keys {p : List Bp} {reg reg' : Registry}
    (h : reconcile reg p = some reg') :
    reg'.map Prod.fst = reg.map Prod.fst := by
  induction p generalizing reg with
  | nil =>
    simp only [reconcile, Option.some.injEq] at h
    rw [h]
  | cons bp rest ih =>
    simp only [reconcile] at h
    cases hs : reconcileStep reg bp with
    | none => rw [hs] at h; simp at h
    | some u =>
      rw [hs] at h
      rw [ih h, reconcileStep_keys hs]

theorem reconcileStep_isSome_iff (reg : Registry) (bp : Bp) :
    (reconcileStep reg bp).isSome ↔ (lookupBp reg bp.id).isSome := by
  rw [reconcileStep_eq]
  cases h : lookupBp reg bp.id <;> simp

/-- Locality of reconciliation: the final cached descriptor for any id is
the per-entry fold of `eStep` over the payload elements carrying that id. -/
theorem reconcile_lookup {p : List Bp} {reg reg' : Registry}
    (h : reconcile reg p = some reg') (i : Int) :
    lookupBp reg' i =
      (lookupBp reg i).map
        (fun e => (p.filter (fun bp => bp.id == i)).foldl eStep e) := by
  induction p generalizing reg with
  | nil =>
    simp only [reconcile, Option.some.injEq] at h
    subst h
    cases hl : lookupBp reg i <;> simp [List.filter]
  | cons bp rest ih =>
    simp only [reconcile] at h
    cases hs : reconcileStep reg bp with
    | none => rw [hs] at h; simp at h
    | some u =>
      rw [hs] at h
      have hu := reconcileStep_eq reg bp
      rw [hs] at hu
      cases hl : lookupBp reg bp.id with
      | none => rw [hl] at hu; simp at hu
      | some c =>
        rw [hl] at hu
        simp only [Option.map_some', Option.some.injEq] at hu
        by_cases hbi : bp.id = i
        · subst hbi
          have hlu : lookupBp u bp.id = some (eStep c bp) := by
            rw [hu]
            exact lookupBp_update_self _ hl
          rw [ih h, hlu, hl]
          simp [List.filter_cons]
        · have hlu : lookupBp u i = lookupBp reg i := by
            rw [hu]
            exact lookupBp_update_ne _ (fun hij => hbi hij.symm)
          rw [ih h, hlu]
          have hfil : (bp.id == i) = false := by
            simp [hbi]
          simp [List.filter_cons, hfil]

theorem reconcile_mem_isSome {p : List Bp} {reg reg' : Registry}
    (h : reconcile reg p = some reg') :
    ∀ bp ∈ p, (lookupBp reg bp.id).isSome := by
  induction p generalizing reg with
  | nil => intro bp hbp; cases hbp
  | cons x rest ih =>
    simp only [reconcile] at h
    cases hs : reconcileStep reg x with
    | none => rw [hs] at h; simp at h
    | some u =>
      rw [hs] at h
      intro bp hbp
      rcases List.mem_cons.mp hbp with hx | hr
      · subst hx
        rw [← reconcileStep_isSome_iff, hs]
        rfl
      · have husome : (lookupBp u bp.id).isSome := ih h bp hr
        rw [lookupBp_isSome_iff, reconcileStep_keys hs, ← lookupBp_isSome_iff] at husome
        exact husome

theorem reconcile_isSome {p : List Bp} {reg : Registry}
    (h : ∀ bp ∈ p, (lookupBp reg bp.id).isSome) :
    (reconcile reg p).isSome := by
  induction p generalizing reg with
  | nil => simp [reconcile]
  | cons x rest ih =>
    have hx : (reconcileStep reg x).isSome := by
      rw [reconcileStep_isSome_iff]
      exact h x (List.mem_cons_self x rest)
    cases hs : reconcileStep reg x with
    | none => rw [hs] at hx; cases hx
    | some u =>
      simp only [reconcile, hs]
      apply ih
      intro bp hbp
      have := h bp (List.mem_cons_of_mem x hbp)
      rw [lookupBp_isSome_iff, ← reconcileStep_keys hs, ← lookupBp_isSome_iff] at this
      exact this

/-- The Go loop panics (nil-pointer dereference) as soon as the payload
references an unregistered breakpoint id. -/
theorem reconcile_none_of_missing {p : List Bp} {reg : Registry}
    (h : ∃ bp ∈ p, lookupBp reg bp.id = none) :
    reconcile reg p = none := by
  cases hr : reconcile reg p with
  | none => rfl
  | some reg' =>
    obtain ⟨bp, hbp, hnone⟩ := h
    have := reconcile_mem_isSome hr bp hbp
    rw [hnone] at this
    cases this

/-- Association lists with the same nodup key sequence and the same
lookups coincide. -/
theorem registry_ext {A B : Registry}
    (hk : A.map Prod.fst = B.map Prod.fst)
    (hnd : (A.map Prod.fst).Nodup)
    (hl : ∀ i, lookupBp A i = lookupBp B i) : A = B := by
  induction A generalizing B with
  | nil =>
    have : B.map Prod.fst = [] := hk.symm
    cases B with
    | nil => rfl
    | cons b bs => simp at this
  | cons kv A' ih =>
    obtain ⟨k, e⟩ := kv
    cases B with
    | nil => simp at hk
    | cons kv' B' =>
      obtain ⟨k', f⟩ := kv'
      simp only [List.map_cons, List.cons.injEq] at hk
      obtain ⟨hkk, hk'⟩ := hk
      subst hkk
      have hef : e = f := by
        have := hl k
        rw [lookupBp, if_pos rfl, lookupBp, if_pos rfl] at this
        injection this
      subst hef
      have hnotmem : k ∉ A'.map Prod.fst := (List.nodup_cons.mp hnd).1
      have hnd' : (A'.map Prod.fst).Nodup := (List.nodup_cons.mp hnd).2
      have hl' : ∀ i, lookupBp A' i = lookupBp B' i := by
        intro i
        by_cases hik : k = i
        · subst hik
          rw [(lookupBp_eq_none_iff A' k).mpr hnotmem,
            (lookupBp_eq_none_iff B' k).mpr (hk' ▸ hnotmem)]
        · have := hl i
          rw [lookupBp, if_neg hik, lookupBp, if_neg hik] at this
          exact this
      rw [ih hk' hnd' hl']

/-- Convergence: two descriptors agreeing on the cumulative count and on
all fields the loop never writes are either driven to the same result by
a payload, or both left completely untouched by it. -/
theorem foldl_eStep_congr (l : List Bp) (a b : Bp)
    (ht : a.total = b.total) (hr : restE a = restE b) :
    l.foldl eStep a = l.foldl eStep b ∨
      (l.foldl eStep a = a ∧ l.foldl eStep b = b) := by
  induction l generalizing a b with
  | nil => exact Or.inr ⟨rfl, rfl⟩
  | cons x l ih =>
    by_cases hx : a.total = x.total
    · have hbx : b.total = x.total := ht ▸ hx
      have hea : eStep a x = a := by rw [eStep, if_pos hx]
      have heb : eStep b x = b := by rw [eStep, if_pos hbx]
      rw [List.foldl_cons, List.foldl_cons, hea, heb]
      exact ih a b ht hr
    · have hbx : ¬ b.total = x.total := ht ▸ hx
      have heq : eStep a x = eStep b x := by
        rw [eStep, if_neg hx, eStep, if_neg hbx]
        apply bpExt
        · have h1 : restE { a with total := x.total, hits := x.hits } = restE a := rfl
          have h2 : restE { b with total := x.total, hits := x.hits } = restE b := rfl
          rw [h1, h2, hr]
        · rfl
        · rfl
      rw [List.foldl_cons, List.foldl_cons, heq]
      exact Or.inl rfl

theorem eStep_of_eq {cached bp : Bp} (h : cached.total = bp.total) :
    eStep cached bp = cached := by
  rw [eStep, if_pos h]

theorem eStep_of_ne {cached bp : Bp} (h : ¬ cached.total = bp.total) :
    eStep cached bp = { cached with total := bp.total, hits := bp.hits } := by
  rw [eStep, if_neg h]

/-- Per-entry idempotence of the reconciliation fold. -/
theorem foldl_eStep_idem (l : List Bp) (e : Bp) :
    l.foldl eStep (l.foldl eStep e) = l.foldl eStep e := by
  induction l generalizing e with
  | nil => rfl
  | cons x l ih =>
    simp only [List.foldl_cons]
    by_cases hwx : (List.foldl eStep (eStep e x) l).total = x.total
    · rw [eStep_of_eq hwx]
      exact ih (eStep e x)
    · rw [eStep_of_ne hwx]
      by_cases hex : e.total = x.total
      · have hue : eStep e x = e := eStep_of_eq hex
        rw [hue] at hwx ⊢
        have hconv := foldl_eStep_congr l
          { List.foldl eStep e l with total := x.total, hits := x.hits } e
          (by rw [← hex])
          (by
            have h1 : restE { List.foldl eStep e l with total := x.total, hits := x.hits } =
                restE (List.foldl eStep e l) := rfl
            rw [h1, restE_foldl])
        rcases hconv with hsame | ⟨_, huntouched⟩
        · exact hsame
        · exfalso
          rw [huntouched] at hwx
          exact hwx hex
      · have hux : eStep e x = { e with total := x.total, hits := x.hits } :=
          eStep_of_ne hex
        have hau : { List.foldl eStep (eStep e x) l with
            total := x.total, hits := x.hits } = eStep e x := by
          apply bpExt
          · have h1 : restE { List.foldl eStep (eStep e x) l with
                total := x.total, hits := x.hits } =
                restE (List.foldl eStep (eStep e x) l) := rfl
            rw [h1, restE_foldl]
          · rw [hux]
          · rw [hux]
        rw [hau]

/-- C2: applying the same stop-event breakpoint payload to the registry
twice in succession leaves the registry in the same state as applying it
once, for every registry state (keys nodup, as a Go map) and every payload
whose breakpoint ids are registered -- registration of every payload id is
exactly what makes the first application succeed. -/
theorem reconcile_idempotent (reg reg₁ : Registry) (p : List Bp)
    (hnd : (reg.map Prod.fst).Nodup)
    (h : reconcile reg p = some reg₁) :
    reconcile reg₁ p = some reg₁ := by
  have hk : reg₁.map Prod.fst = reg.map Prod.fst := reconcile_keys h
  have h1 : ∀ bp ∈ p, (lookupBp reg bp.id).isSome := reconcile_mem_isSome h
  have h1' : ∀ bp ∈ p, (lookupBp reg₁ bp.id).isSome := by
    intro bp hbp
    rw [lookupBp_isSome_iff, hk, ← lookupBp_isSome_iff]
    exact h1 bp hbp
  have h2 : (reconcile reg₁ p).isSome := reconcile_isSome h1'
  cases hr2 : reconcile reg₁ p with
  | none => rw [hr2] at h2; cases h2
  | some reg₂ =>
    have hk2 : reg₂.map Prod.fst = reg₁.map Prod.fst := reconcile_keys hr2
    have hpt : ∀ i, lookupBp reg₂ i = lookupBp reg₁ i := by
      intro i
      rw [reconcile_lookup hr2 i, reconcile_lookup h i]
      cases hl : lookupBp reg i with
      | none => simp
      | some e => simp [foldl_eStep_idem]
    have hnd2 : (reg₂.map Prod.fst).Nodup := by
      rw [hk2, hk]
      exact hnd
    rw [registry_ext hk2 hnd2 hpt]

/-- Well-formedness of the Go map `delve.breakpoints`: every descriptor is
stored under its own id (`delve.breakpoints[newbp.ID] = newbp` in
`delveBreakpoint`, `delve.breakpoints[-1] = panic` in `delveStartClient`
where the unrecovered-panic breakpoint reports id `-1`). -/
def wfReg (reg : Registry) : Prop := ∀ kv ∈ reg, (kv.2).id = kv.1

instance : DecidablePred wfReg := fun reg => List.decidableBAll _ reg

theorem lookupBp_wf {reg : Registry} (h : wfReg reg) {i : Int} {e : Bp}
    (he : lookupBp reg i = some e) : e.id = i := by
  induction reg with
  | nil => cases he
  | cons kv r ih =>
    obtain ⟨k, w⟩ := kv
    by_cases hk : k = i
    · rw [lookupBp, if_pos hk] at he
      have hw : w = e := by injection he
      subst hw
      rw [← hk]
      exact h (k, w) (List.mem_cons_self _ _)
    · rw [lookupBp, if_neg hk] at he
      exact ih (fun kv hkv => h kv (List.mem_cons_of_mem _ hkv)) he

theorem wfReg_update {reg : Registry} (h : wfReg reg) {i : Int} {v : Bp}
    (hv : v.id = i) : wfReg (updateBp reg i v) := by
  induction reg with
  | nil => intro kv hkv; cases hkv
  | cons kv r ih =>
    obtain ⟨k, w⟩ := kv
    by_cases hk : k = i
    · rw [updateBp, if_pos hk]
      intro kv' hkv'
      rcases List.mem_cons.mp hkv' with h1 | h2
      · subst h1
        show v.id = k
        rw [hv, hk]
      · exact h kv' (List.mem_cons_of_mem _ h2)
    · rw [updateBp, if_neg hk]
      intro kv' hkv'
      rcases List.mem_cons.mp hkv' with h1 | h2
      · subst h1
        exact h (k, w) (List.mem_cons_self _ _)
      · exact ih (fun kv hkv => h kv (List.mem_cons_of_mem _ hkv)) kv' h2

/-- The full body of the reconciliation-and-render loop of `delveContinue`
and `delveNext`: the registry effect together with the descriptor rendered
into the breakpoints buffer for each payload element.  On a hit-count
change the loop renders the server descriptor `bp`; otherwise it executes
`bp = delve.breakpoints[bp.ID]` and renders the cached one. -/
def reconcileRender : Registry → List Bp → Option (Registry × List Bp)
  | reg, [] => some (reg, [])
  | reg, bp :: rest =>
    match lookupBp reg bp.id with
    | none => none
    | some cached =>
      if cached.total ≠ bp.total then
        match reconcileRender
            (updateBp reg bp.id { cached with total := bp.total, hits := bp.hits }) rest with
        | none => none
        | some (regF, outs) => some (regF, bp :: outs)
      else
        match reconcileRender reg rest with
        | none => none
        | some (regF, outs) => some (regF, cached :: outs)

/-- The registry component of the render loop agrees with `reconcile`. -/
theorem reconcileRender_fst (reg : Registry) (p : List Bp) :
    (reconcileRender reg p).map Prod.fst = reconcile reg p := by
  induction p generalizing reg with
  | nil => rfl
  | cons bp rest ih =>
    rw [reconcileRender, reconcile, reconcileStep]
    cases hl : lookupBp reg bp.id with
    | none => rfl
    | some cached =>
      dsimp only
      by_cases ht : cached.total ≠ bp.total
      · rw [if_pos ht, if_pos ht]
        cases hrec : reconcileRender
            (updateBp reg bp.id { cached with total := bp.total, hits := bp.hits }) rest with
        | none =>
          have hfst := ih (updateBp reg bp.id { cached with total := bp.total, hits := bp.hits })
          rw [hrec] at hfst
          simp only [Option.map_none'] at hfst
          exact hfst
        | some ro =>
          obtain ⟨regF, outs⟩ := ro
          have hfst := ih (updateBp reg bp.id { cached with total := bp.total, hits := bp.hits })
          rw [hrec] at hfst
          simp only [Option.map_some'] at hfst
          exact hfst
      · rw [if_neg ht, if_neg ht]
        cases hrec : reconcileRender reg rest with
        | none =>
          have hfst := ih reg
          rw [hrec] at hfst
          simp only [Option.map_none'] at hfst
          exact hfst
        | some ro =>
          obtain ⟨regF, outs⟩ := ro
          have hfst := ih reg
          rw [hrec] at hfst
          simp only [Option.map_some'] at hfst
          exact hfst

/-- Under map well-formedness the rendered descriptors carry exactly the
ids of the (sorted) server payload, in payload order. -/
theorem reconcileRender_ids {p : List Bp} {reg regF : Registry} {outs : List Bp}
    (hwf : wfReg reg) (h : reconcileRender reg p = some (regF, outs)) :
    outs.map Bp.id = p.map Bp.id := by
  induction p generalizing reg regF outs with
  | nil =>
    rw [reconcileRender] at h
    injection h with h
    injection h with h1 h2
    rw [← h2]
  | cons bp rest ih =>
    rw [reconcileRender] at h
    cases hl : lookupBp reg bp.id with
    | none => rw [hl] at h; cases h
    | some cached =>
      rw [hl] at h
      dsimp only at h
      by_cases ht : cached.total ≠ bp.total
      · rw [if_pos ht] at h
        cases hrec : reconcileRender
            (updateBp reg bp.id { cached with total := bp.total, hits := bp.hits }) rest with
        | none => rw [hrec] at h; cases h
        | some ro =>
          obtain ⟨regF', outs'⟩ := ro
          rw [hrec] at h
          injection h with h
          injection h with h1 h2
          have hcid : cached.id = bp.id := lookupBp_wf hwf hl
          have hwf' : wfReg (updateBp reg bp.id
              { cached with total := bp.total, hits := bp.hits }) :=
            wfReg_update hwf
              (show ({ cached with total := bp.total, hits := bp.hits } : Bp).id = bp.id from hcid)
          rw [← h2, List.map_cons, List.map_cons, ih hwf' hrec]
      · rw [if_neg ht] at h
        cases hrec : reconcileRender reg rest with
        | none => rw [hrec] at h; cases h
        | some ro =>
          obtain ⟨regF', outs'⟩ := ro
          rw [hrec] at h
          injection h with h
          injection h with h1 h2
          rw [← h2, List.map_cons, List.map_cons, ih hwf hrec,
            lookupBp_wf hwf hl]

instance : IsTotal Bp (fun a b => a.id ≤ b.id) :=
  ⟨fun a b => Int.le_total a.id b.id⟩

instance : IsTrans Bp (fun a b => a.id ≤ b.id) :=
  ⟨fun _ _ _ h₁ h₂ => le_trans h₁ h₂⟩

/-- `sort.Sort(ByID(breakpoint))` (delve.go lines 324-329, 479, 527).
Go's sort guarantees a permutation that is non-decreasing with respect to
`Less(i, j) = a[i].ID < a[j].ID`; insertion sort realises that contract. -/
def sortByID (l : List Bp) : List Bp :=
  List.insertionSort (fun a b => a.id ≤ b.id) l

theorem sortByID_ids_lt (l : List Bp) (h : (l.map Bp.id).Nodup) :
    List.Pairwise (fun a b : Bp => a.id < b.id) (sortByID l) := by
  have hperm : List.Perm (sortByID l) l :=
    List.perm_insertionSort (fun a b : Bp => a.id ≤ b.id) l
  have hs : List.Pairwise (fun a b : Bp => a.id ≤ b.id) (sortByID l) :=
    List.sorted_insertionSort (fun a b : Bp => a.id ≤ b.id) l
  have hnd : ((sortByID l).map Bp.id).Nodup :=
    ((hperm.map Bp.id).nodup_iff).mpr h
  have hne : List.Pairwise (fun a b : Bp => a.id ≠ b.id) (sortByID l) := by
    rw [List.Nodup, List.pairwise_map] at hnd
    exact hnd
  exact (hs.and hne).imp (fun hab => lt_of_le_of_ne hab.1 hab.2)

/-- The part of `delveapi.DebuggerState` that `delveContinue` / `delveNext`
inspect: the `Exited` flag and `ExitStatus`. -/
structure DebuggerState where
  exited : Bool
  exitStatus : Int
deriving DecidableEq

/-- Observable outcome of one `delveContinue` / `delveNext` invocation.
`paniced` models a Go runtime panic (`nil`-pointer dereference),
`exitedReport` the `Echomsg "Process %d has exited with status %d"` early
return, `rpcError` an error returned to the caller, and `stopped` a normal
stop with the updated registry and the descriptor list rendered into the
breakpoints buffer. -/
inductive StepOutcome where
  | paniced : StepOutcome
  | exitedReport : Int → Int → Registry → StepOutcome
  | rpcError : Registry → StepOutcome
  | stopped : Registry → List Bp → StepOutcome
deriving DecidableEq

/-- `delveContinue` (delve.go lines 462-509) as a function of the RPC
responses it consumes: the state received from `client.Continue()` (Go
`nil` is `none`; the code then dereferences `state.ExitStatus`, a panic)
and the result of `client.ListBreakpoints()`.  Rendering of the current
thread and cursor moves carry no session state and are omitted. -/
def delveContinue (procPid : Int) (reg : Registry) (resp : Option DebuggerState)
    (listResp : Except Unit (List Bp)) : StepOutcome :=
  match resp with
  | none => .paniced
  | some st =>
    if st.exited then .exitedReport procPid st.exitStatus reg
    else
      match listResp with
      | .error _ => .rpcError reg
      | .ok bps =>
        match reconcileRender reg (sortByID bps) with
        | none => .paniced
        | some (reg', outs) => .stopped reg' outs

/-- `delveNext` (delve.go lines 512-560): identical control flow, except
that `client.Next()` returns `(state, err)` and an RPC error is returned
before the state is inspected. -/
def delveNext (procPid : Int) (reg : Registry)
    (resp : Except Unit (Option DebuggerState))
    (listResp : Except Unit (List Bp)) : StepOutcome :=
  match resp with
  | .error _ => .rpcError reg
  | .ok none => .paniced
  | .ok (some st) =>
    if st.exited then .exitedReport procPid st.exitStatus reg
    else
      match listResp with
      | .error _ => .rpcError reg
      | .ok bps =>
        match reconcileRender reg (sortByID bps) with
        | none => .paniced
        | some (reg', outs) => .stopped reg' outs

/-- `delveRestart` (delve.go lines 597-603): forwards `client.Restart()`
and surfaces its error unconditionally -- it runs regardless of whether
the debuggee has exited. -/
def delveRestart (restartResp : Except Unit Unit) : Except Unit Unit :=
  restartResp

/-- Registry seeding in `delveStartClient` (delve.go lines 217-223): the
map is created empty and the server-supplied unrecovered-panic breakpoint
descriptor is registered eagerly under key `-1`. -/
def startClientRegistry (panicBp : Bp) : Registry :=
  [(-1, panicBp)]

/-- The running state of the supervised `dlv` child process
(`server *exec.Cmd`). -/
structure Proc where
  running : Bool
deriving DecidableEq

/-- The error `os.Process.Kill` reports when the process has already
died. -/
inductive KillError where
  | processAlreadyFinished : KillError
deriving DecidableEq

/-- `server.Process.Kill()`: succeeds on a live process, errors on a dead
one. -/
def processKill (p : Proc) : Except KillError Unit :=
  if p.running then .ok () else .error .processAlreadyFinished

/-- `delveKill` (delve.go lines 630-640): when no server was ever started
(`server == nil`) it returns `nil` without doing anything; otherwise it
forwards any error of `server.Process.Kill()`. -/
def delveKill (server : Option Proc) : Except KillError Unit :=
  match server with
  | none => .ok ()
  | some p =>
    match processKill p with
    | .error e => .error e
    | .ok _ => .ok ()

/-- Session-client RPC failure, abstract. -/
inductive RPCError where
  | connectionFailed : RPCError
deriving DecidableEq

/-- `delveFunctionList` (delve.go lines 386-393) as a function of the
`client.ListFunctions("main")` result:

    funcs, err := delve.client.ListFunctions("main")
    if err != nil {
        return []string{}, nil
    }
    return funcs, nil

The error branch returns an empty list together with a `nil` error. -/
def delveFunctionList (r : Except RPCError (List String)) :
    Except RPCError (List String) :=
  match r with
  | .error _ => .ok []
  | .ok fs => .ok fs

/-- `FunctionsCompletion` (delve/delve.go lines 449-456): the same wrapper
in the rewritten package, which does surface the RPC error. -/
def FunctionsCompletion (r : Except RPCError (List String)) :
    Except RPCError (List String) :=
  match r with
  | .error e => .error e
  | .ok fs => .ok fs

/-- `strings.Split(s, ".")` over a character list: splits at every dot,
keeping empty segments; the result is always nonempty. -/
def splitDots : List Char → List (List Char)
  | [] => [[]]
  | c :: cs =>
    let rest := splitDots cs
    if c = '.' then [] :: rest
    else (c :: rest.headD []) :: rest.tail

/-- `strings.Join(parts, "")`. -/
def joinParts (ps : List (List Char)) : List Char :=
  ps.foldr (fun a b => a ++ b) []

/-- The breakpoint display-name derivation of `delveBreakpoint`
(delve.go lines 338-341, identical in `parseArgs`, delve/delve.go lines
190-193):

    bpslice := strings.Split(args[0], ".")
    bpslice[1] = fmt.Sprintf("%s%s", strings.ToUpper(bpslice[1][:1]), bpslice[1][1:])
    bpName = strings.Join(bpslice, "")

`none` models the two Go runtime panics: index 1 out of range when the
symbol has no dot, and the slice `""[:1]` when the segment after the
first dot is empty.  ASCII bytes are modelled as characters, so
`strings.ToUpper` on the one-byte slice is `Char.toUpper`. -/
def deriveBpName (sym : List Char) : Option (List Char) :=
  match splitDots sym with
  | p0 :: p1 :: rest =>
    match p1 with
    | [] => none
    | c :: cs => some (joinParts (p0 :: (c.toUpper :: cs) :: rest))
  | _ => none

/-- Uppercase the first character of a segment, if any. -/
def upperFirst : List Char → List Char
  | [] => []
  | c :: cs => c.toUpper :: cs

/-- The name derivation in the words of the spec: the dotted path is
collapsed and the first letter after each dot upper-cased.  Written only
to be compared against `deriveBpName`. -/
def specDeriveName (sym : List Char) : List Char :=
  match splitDots sym with
  | [] => []
  | p0 :: rest => joinParts (p0 :: rest.map upperFirst)

theorem splitDots_ne_nil (l : List Char) : splitDots l ≠ [] := by
  cases l with
  | nil => simp [splitDots]
  | cons c cs =>
    rw [splitDots]
    by_cases hc : c = '.'
    · simp [hc]
    · simp [hc]

theorem joinParts_cons (p : List Char) (ps : List (List Char)) :
    joinParts (p :: ps) = p ++ joinParts ps := rfl

theorem joinParts_splitDots (l : List Char) :
    joinParts (splitDots l) = l.filter (fun c => c != '.') := by
  induction l with
  | nil => rfl
  | cons c cs ih =>
    rw [splitDots]
    by_cases hc : c = '.'
    · rw [if_pos hc]
      have hfc : (c != '.') = false := by simp [hc]
      rw [List.filter_cons, hfc, joinParts_cons, List.nil_append, ih]
      simp
    · rw [if_neg hc]
      have hfc : (c != '.') = true := by simp [hc]
      rw [List.filter_cons, hfc]
      cases hrest : splitDots cs with
      | nil => exact absurd hrest (splitDots_ne_nil cs)
      | cons p ps =>
        rw [← ih, hrest]
        rw [joinParts_cons]
        simp [joinParts_cons]

theorem splitDots_append_dot {a : List Char} (b : List Char)
    (h : ∀ x ∈ a, x ≠ '.') :
    splitDots (a ++ '.' :: b) = a :: splitDots b := by
  induction a with
  | nil =>
    rw [List.nil_append, splitDots]
    simp
  | cons c a' ih =>
    have hc : c ≠ '.' := h c (List.mem_cons_self _ _)
    rw [List.cons_append, splitDots,
      ih (fun x hx => h x (List.mem_cons_of_mem _ hx))]
    simp [hc]

/-- The nvim buffer contents as `v.BufferLines` returns them, one byte
slice per line (an nvim buffer always holds at least one line; the empty
buffer is a single empty line). -/
abbrev BufLines := List (List Char)

/-- The write start position computed by `printBuffer` (delve.go lines
562-590): `v.BufferLineCount(b)` when `append` is true, `0` otherwise;
then, if that count is `1`, the lines are fetched (`buf[0]` is the first
line) and an empty first line resets the start to `0`. -/
def printBufferStart (ap : Bool) (lines : BufLines) : Nat :=
  let start := if ap then lines.length else 0
  if start = 1 then
    if (lines.headD []).length = 0 then 0 else start
  else start

/-- `printBuffer(v, b, append, data)` restricted to its line accounting:
the first component is the `start` argument passed to
`v.SetBufferLines(b, start, -1, true, data)`, the second is the returned
line count `start + len(data)`. -/
def printBuffer (ap : Bool) (lines : BufLines) (data : List (List Char)) :
    Nat × Nat :=
  (printBufferStart ap lines, printBufferStart ap lines + data.length)

/-- The start position in the words of the claim: the buffer's current
line count when appending -- a buffer consisting of one empty line
counting as zero lines -- and `0` otherwise.  Written only to be compared
against `printBufferStart`. -/
def specStart (ap : Bool) (lines : BufLines) : Nat :=
  if ap then (if lines = [[]] then 0 else lines.length) else 0

/-! Concrete descriptors and registries used by witnesses and
counterexamples. -/

def bp1 : Bp := ⟨1, "MainMain", 4096, "main.go", 10, "main.main", 2, [("1", 2)]⟩

def bp2 : Bp := ⟨2, "MainRun", 8192, "run.go", 20, "main.run", 1, [("1", 1)]⟩

/-- A later server report for breakpoint 1: cumulative count grew to 3. -/
def bpSrv3 : Bp := ⟨1, "MainMain", 4096, "main.go", 10, "main.main", 3, [("1", 3)]⟩

/-- A server report for breakpoint 1 with a cumulative count below the
cached one, as delivered after `client.Restart()` resets the server-side
counters. -/
def bpSrvLow : Bp := ⟨1, "MainMain", 4096, "main.go", 10, "main.main", 1, [("1", 1)]⟩

/-- The implicit server-defined unrecovered-panic breakpoint, id `-1`. -/
def panicBp : Bp := ⟨-1, "unrecovered-panic", 512, "panic.go", 7, "runtime.startpanic", 0, []⟩

def reg0 : Registry := [(1, bp1), (2, bp2)]

def reg31 : Registry := [(1, bpSrv3), (2, bp2)]

def stRun : DebuggerState := ⟨false, 0⟩

def stExit : DebuggerState := ⟨true, 2⟩

/-- C1 is false as stated: the reconciliation pass overwrites on any
difference of the cumulative count, including a smaller server-reported
value, so the cached cumulative hit count can decrease.  Concretely, with
breakpoint 1 cached at total 2, a payload reporting total 1 (the counts a
restarted server reports) leaves the cache at 1 < 2. -/
theorem hitCount_decrease_cx :
    ((reconcile reg0 [bpSrvLow]).bind (fun r => lookupBp r 1)).map Bp.total = some 1 ∧
    (lookupBp reg0 1).map Bp.total = some 2 ∧ (1 : Nat) < 2 := by decide

/-- C1 (amended): for a registered breakpoint the reconciliation pass
replaces the cached descriptor's hit-count fields with the server's
exactly when the server-reported cumulative count differs from the cached
one and otherwise leaves the registry unchanged; other registry entries
are never touched.  The cached cumulative count thereby tracks the last
differing server report and may decrease (for instance after a server
restart); it is not monotone. -/
theorem reconcileStep_overwrite_iff (reg reg' : Registry) (bp cached : Bp)
    (hl : lookupBp reg bp.id = some cached)
    (hs : reconcileStep reg bp = some reg') :
    lookupBp reg' bp.id =
      some (if cached.total = bp.total then cached
        else { cached with total := bp.total, hits := bp.hits }) ∧
    (∀ j, j ≠ bp.id → lookupBp reg' j = lookupBp reg j) ∧
    (cached.total = bp.total → reg' = reg) := by
  rw [reconcileStep_eq, hl] at hs
  simp only [Option.map_some', Option.some.injEq] at hs
  subst hs
  refine ⟨?_, ?_, ?_⟩
  · rw [lookupBp_update_self _ hl, eStep]
  · intro j hj
    exact lookupBp_update_ne _ hj
  · intro ht
    rw [eStep_of_eq ht, updateBp_self hl]

theorem reconcileStep_overwrite_iff_witness :
    lookupBp reg31 bpSrv3.id =
      some (if bp1.total = bpSrv3.total then bp1
        else { bp1 with total := bpSrv3.total, hits := bpSrv3.hits }) :=
  (reconcileStep_overwrite_iff reg0 reg31 bpSrv3 bp1 (by decide) (by decide)).1

theorem reconcile_idempotent_witness :
    reconcile reg31 [bpSrv3, bp2] = some reg31 :=
  reconcile_idempotent reg0 reg31 [bpSrv3, bp2] (by decide) (by decide)

/-- A successful reconciliation-and-render pass over the sorted server
listing produces a strictly id-ascending descriptor sequence. -/
theorem render_sorted_of_stopped {reg regF : Registry} {bps outs : List Bp}
    (hwf : wfReg reg) (hnd : (bps.map Bp.id).Nodup)
    (hrec : reconcileRender reg (sortByID bps) = some (regF, outs)) :
    List.Pairwise (fun a b : Bp => a.id < b.id) outs := by
  have hids : outs.map Bp.id = (sortByID bps).map Bp.id :=
    reconcileRender_ids hwf hrec
  have hsorted : List.Pairwise (fun a b : Bp => a.id < b.id) (sortByID bps) :=
    sortByID_ids_lt bps hnd
  have hlt : List.Pairwise (fun x y : Int => x < y) ((sortByID bps).map Bp.id) :=
    List.pairwise_map.mpr hsorted
  rw [← hids] at hlt
  exact List.pairwise_map.mp hlt

/-- C3: the breakpoint-descriptor sequence rendered after a continue or a
next is the server listing sorted by `sort.Sort(ByID(breakpoint))` and is
strictly ascending in the server-assigned identifier, given that the
server assigns distinct ids and that the registry stores descriptors
under their own id. -/
theorem render_sorted_continue_next (procPid : Int) (reg : Registry)
    (st : DebuggerState) (bps : List Bp)
    (hwf : wfReg reg) (hnd : (bps.map Bp.id).Nodup) :
    (∀ reg' outs,
      delveContinue procPid reg (some st) (.ok bps) = .stopped reg' outs →
      List.Pairwise (fun a b : Bp => a.id < b.id) outs) ∧
    (∀ reg' outs,
      delveNext procPid reg (.ok (some st)) (.ok bps) = .stopped reg' outs →
      List.Pairwise (fun a b : Bp => a.id < b.id) outs) := by
  constructor
  · intro reg' outs h
    rw [delveContinue] at h
    cases hex : st.exited with
    | true => rw [hex] at h; simp at h
    | false =>
      rw [hex] at h
      simp only [Bool.false_eq_true, if_false] at h
      cases hrec : reconcileRender reg (sortByID bps) with
      | none => rw [hrec] at h; simp at h
      | some ro =>
        obtain ⟨regF, os⟩ := ro
        rw [hrec] at h
        dsimp only at h
        injection h with h1 h2
        rw [← h2]
        exact render_sorted_of_stopped hwf hnd hrec
  · intro reg' outs h
    rw [delveNext] at h
    cases hex : st.exited with
    | true => rw [hex] at h; simp at h
    | false =>
      rw [hex] at h
      simp only [Bool.false_eq_true, if_false] at h
      cases hrec : reconcileRender reg (sortByID bps) with
      | none => rw [hrec] at h; simp at h
      | some ro =>
        obtain ⟨regF, os⟩ := ro
        rw [hrec] at h
        dsimp only at h
        injection h with h1 h2
        rw [← h2]
        exact render_sorted_of_stopped hwf hnd hrec

theorem render_sorted_continue_next_witness :
    List.Pairwise (fun a b : Bp => a.id < b.id) [bpSrv3, bp2] ∧
    List.Pairwise (fun a b : Bp => a.id < b.id) [bpSrv3, bp2] :=
  ⟨(render_sorted_continue_next 1 reg0 stRun [bp2, bpSrv3]
      (by decide) (by decide)).1 reg31 [bpSrv3, bp2] (by decide),
    (render_sorted_continue_next 1 reg0 stRun [bp2, bpSrv3]
      (by decide) (by decide)).2 reg31 [bpSrv3, bp2] (by decide)⟩

/-- C4 is false as stated: when a stop event's breakpoint data references
an id absent from the registry, the reconciliation loop dereferences the
`nil` map entry and the stop-event processing crashes (`paniced`); no lazy
registration happens.  Concretely, for an empty registry and a payload
holding only the unrecovered-panic breakpoint, `delveContinue` panics. -/
theorem missing_id_fails_cx :
    delveContinue 1 [] (some stRun) (.ok [panicBp]) = .paniced := by decide

/-- C4 (amended): a stop-event payload referencing any breakpoint id not
present in the registry makes the reconciliation pass fail (a nil-pointer
panic in the Go code); the implicit unrecovered-panic breakpoint avoids
this only because `delveStartClient` registers it eagerly, under key `-1`,
from the server-supplied descriptor before any stop event is processed. -/
theorem missing_id_amended (reg : Registry) (p : List Bp) (pb : Bp)
    (h : ∃ bp ∈ p, lookupBp reg bp.id = none) :
    reconcile reg p = none ∧
    lookupBp (startClientRegistry pb) (-1) = some pb := by
  refine ⟨reconcile_none_of_missing h, ?_⟩
  rw [startClientRegistry, lookupBp, if_pos rfl]

theorem missing_id_amended_witness :
    reconcile reg0 [panicBp] = none ∧
    lookupBp (startClientRegistry panicBp) (-1) = some panicBp :=
  missing_id_amended reg0 [panicBp] panicBp (by decide)

def symC5 : List Char := ['m', 'a', 'i', 'n', '.', 's', 'u', 'b', '.', 'r', 'u', 'n']

/-- C5 is false as stated: the derivation upper-cases only the first
letter of the segment after the first dot.  On `main.sub.run` the code
yields `mainSubrun`, while upper-casing the first letter after each dot
(the claimed rule) yields `mainSubRun`. -/
theorem deriveBpName_cx :
    deriveBpName symC5 = some ['m', 'a', 'i', 'n', 'S', 'u', 'b', 'r', 'u', 'n'] ∧
    specDeriveName symC5 = ['m', 'a', 'i', 'n', 'S', 'u', 'b', 'R', 'u', 'n'] ∧
    deriveBpName symC5 ≠ some (specDeriveName symC5) := by decide

/-- C5 (amended): for a symbol whose first dot is followed by a nonempty
segment, the derived display name is the symbol with all dots removed and
only the first letter after the first dot upper-cased; on symbols without
a dot, or with an empty segment after the first dot, the derivation
panics (`none`). -/
theorem deriveBpName_first_dot (a cs : List Char) (c : Char)
    (ha : ∀ x ∈ a, x ≠ '.') (hc : c ≠ '.') :
    deriveBpName (a ++ '.' :: c :: cs) =
      some (a ++ c.toUpper :: cs.filter (fun x => x != '.')) := by
  obtain ⟨p, ps, hps⟩ : ∃ p ps, splitDots cs = p :: ps := by
    cases hx : splitDots cs with
    | nil => exact absurd hx (splitDots_ne_nil cs)
    | cons p ps => exact ⟨p, ps, rfl⟩
  have hsplit2 : splitDots (c :: cs) = (c :: p) :: ps := by
    rw [splitDots, if_neg hc, hps]
    rfl
  have hsplit : splitDots (a ++ '.' :: c :: cs) = a :: (c :: p) :: ps := by
    rw [splitDots_append_dot _ ha, hsplit2]
  unfold deriveBpName
  rw [hsplit]
  dsimp only
  rw [joinParts_cons, joinParts_cons, List.cons_append]
  have hq : p ++ joinParts ps = cs.filter (fun x => x != '.') := by
    rw [← joinParts_cons, ← hps, joinParts_splitDots]
  rw [hq]

theorem deriveBpName_first_dot_witness :
    deriveBpName (['m', 'a', 'i', 'n'] ++ '.' :: 'm' :: ['a', 'i', 'n']) =
      some (['m', 'a', 'i', 'n'] ++
        ('m'.toUpper) :: (['a', 'i', 'n'].filter (fun x => x != '.'))) :=
  deriveBpName_first_dot ['m', 'a', 'i', 'n'] ['a', 'i', 'n'] 'm'
    (by decide) (by decide)

/-- C6: once the server reports the debuggee exited, both `delveContinue`
and `delveNext` return the exit report to the caller before touching the
registry -- the session state is unchanged and no crash occurs -- while
`delveRestart` still goes through. -/
theorem exited_rejects_mutations (procPid : Int) (reg : Registry)
    (st : DebuggerState) (lr nr : Except Unit (List Bp))
    (h : st.exited = true) :
    delveContinue procPid reg (some st) lr =
      .exitedReport procPid st.exitStatus reg ∧
    delveNext procPid reg (.ok (some st)) nr =
      .exitedReport procPid st.exitStatus reg ∧
    delveRestart (.ok ()) = .ok () := by
  refine ⟨?_, ?_, rfl⟩
  · rw [delveContinue.eq_def]
    dsimp only
    rw [if_pos h]
  · rw [delveNext.eq_def]
    dsimp only
    rw [if_pos h]

theorem exited_rejects_mutations_witness :
    delveContinue 7 reg0 (some stExit) (Except.ok []) =
      .exitedReport 7 stExit.exitStatus reg0 ∧
    delveNext 7 reg0 (.ok (some stExit)) (Except.ok []) =
      .exitedReport 7 stExit.exitStatus reg0 ∧
    delveRestart (.ok ()) = .ok () :=
  exited_rejects_mutations 7 reg0 stExit (Except.ok []) (Except.ok []) rfl

/-- C7 is false as stated: `delveKill` with no supervised server
(`server == nil`, never started) returns plain success, not an error of
any kind. -/
theorem delveKill_no_server_cx :
    delveKill none = Except.ok () ∧
    delveKill none ≠ Except.error KillError.processAlreadyFinished :=
  ⟨rfl, fun h => Except.noConfusion h⟩

/-- C7 (amended): `delveKill` with a never-started server is a silent
successful no-op; killing an already-dead process returns the error
`os.Process.Kill` reports.  In both cases the error is merely returned --
the callers (`CmdDelveKill`, the deferred call in `delveDetach`) discard
it, so nothing raises past them. -/
theorem delveKill_reporting (p : Proc) (h : p.running = false) :
    delveKill none = Except.ok () ∧
    delveKill (some p) = Except.error KillError.processAlreadyFinished := by
  refine ⟨rfl, ?_⟩
  simp [delveKill, processKill, h]

theorem delveKill_reporting_witness :
    delveKill none = Except.ok () ∧
    delveKill (some ⟨false⟩) = Except.error KillError.processAlreadyFinished :=
  delveKill_reporting ⟨false⟩ rfl

/-- C9 is false as stated: a failing `ListFunctions` RPC in
`delveFunctionList` is swallowed -- the caller receives an empty list and
no error. -/
theorem functionList_swallow_cx :
    delveFunctionList (Except.error RPCError.connectionFailed) = Except.ok [] ∧
    delveFunctionList (Except.error RPCError.connectionFailed) ≠
      Except.error RPCError.connectionFailed :=
  ⟨rfl, fun h => Except.noConfusion h⟩

/-- C9 (amended): `delveFunctionList` swallows an RPC failure, returning
an empty function list with a `nil` error, while the rewritten
`FunctionsCompletion` surfaces the same failure to its caller; both
forward a successful listing unchanged. -/
theorem functionList_error_policy (e : RPCError) (fs : List String) :
    delveFunctionList (.error e) = .ok [] ∧
    delveFunctionList (.ok fs) = .ok fs ∧
    FunctionsCompletion (.error e) = .error e ∧
    FunctionsCompletion (.ok fs) = .ok fs :=
  ⟨rfl, rfl, rfl, rfl⟩

/-- C10: `printBuffer` starts the write at the buffer's line count when
appending -- except that a buffer holding a single empty line counts as
zero lines -- and at line 0 otherwise, and always returns that start
position plus the number of data lines. -/
theorem printBuffer_line_accounting (ap : Bool) (lines : BufLines)
    (data : List (List Char)) :
    printBuffer ap lines data =
      (specStart ap lines, specStart ap lines + data.length) := by
  have hstart : printBufferStart ap lines = specStart ap lines := by
    cases ap with
    | false => rfl
    | true =>
      cases lines with
      | nil => rfl
      | cons l t =>
        cases t with
        | nil =>
          by_cases hl : l = []
          · subst hl
            rfl
          · have hlen : l.length ≠ 0 := by
              intro h0
              exact hl (List.length_eq_zero.mp h0)
            simp [printBufferStart, specStart, hlen, hl]
        | cons l2 t2 =>
          simp [printBufferStart, specStart]
  rw [printBuffer, hstart]

end NvimGo
